import Mathlib

/-!
Verification of the rhq workspace core (`src/rhq-core/workspace.rs`) via a
shallow embedding in Lean.

Filesystem paths are modelled as lists of path segments (`FPath`); the
segment list `[]` stands for the filesystem root, and the parent of a path
drops its last segment, mirroring `std::path::Path::parent`.

The `vcs`, `repository` and `cache` modules of the repository are not part
of the provided sources; where a definition depends on them it is modelled
from the specification (or from doc comments in `workspace.rs`) and marked
as such in its doc comment.
-/

namespace Rhq

/-- A filesystem path, as its list of segments from the filesystem root. -/
abbrev FPath := List String

/-- `std::path::Path::parent`: drop the final segment; the filesystem root
has no parent. -/
def parentPath (p : FPath) : Option FPath :=
  if p.isEmpty then none else some p.dropLast

/-- The closed enumeration of supported VCS kinds (git, mercurial, darcs,
pijul), from `POSSIBLE_VCS` in `src/rhq/main.rs` and the spec's data model. -/
inductive Vcs where
  | git | hg | darcs | pijul
deriving DecidableEq, Repr

/-- Modelled from the spec: a managed repository records its (canonicalized)
local path, its VCS kind, and an optional remote URL (`repository.rs` is not
among the provided sources). -/
structure Repository where
  path : FPath
  vcs : Vcs
  remote : Option String
deriving DecidableEq, Repr

/-- Modelled from the spec: `Repository::path_string`, the path rendered as a
string (used for exclude-pattern matching). -/
def Repository.path_string (r : Repository) : String :=
  String.intercalate "/" r.path

/-- Modelled from the spec: `Repository::name`, the display name derived from
the path's final path segment. -/
def Repository.name (r : Repository) : String :=
  r.path.getLastD ""

/-- Modelled from the spec: `Repository::is_same_local` — two repositories are
the same local repository when they have the same canonicalized local path. -/
def Repository.is_same_local (a b : Repository) : Bool :=
  a.path == b.path

/-- `Workspace::add_repository` (workspace.rs:86-100), acting on the catalog's
repository list: the first entry with the same local path is overwritten in
place; when there is none, the new repository is pushed at the end. -/
def add_repository : List Repository → Repository → List Repository
  | [], repo => [repo]
  | r :: rs, repo =>
    if r.is_same_local repo then repo :: rs
    else r :: add_repository rs repo

/-- The catalog invariant from the spec's data model: no two entries share the
same canonicalized local path. -/
def catalogDistinct (repos : List Repository) : Prop :=
  repos.Pairwise (fun a b => a.path ≠ b.path)

theorem is_same_local_iff (a b : Repository) :
    a.is_same_local b = true ↔ a.path = b.path := by
  simp [Repository.is_same_local]

theorem add_repository_of_not_mem (repos : List Repository) (x : Repository)
    (h : ∀ r ∈ repos, r.path ≠ x.path) :
    add_repository repos x = repos ++ [x] := by
  induction repos with
  | nil => rfl
  | cons r rs ih =>
    have hr : r.path ≠ x.path := h r (List.mem_cons_self r rs)
    have : r.is_same_local x = false := by
      simp [Repository.is_same_local, hr]
    simp only [add_repository, this, Bool.false_eq_true, if_false, List.cons_append]
    rw [ih (fun y hy => h y (List.mem_cons_of_mem r hy))]

theorem add_repository_replace (l1 : List Repository) (r : Repository)
    (l2 : List Repository) (x : Repository)
    (h1 : ∀ y ∈ l1, y.path ≠ x.path) (hr : r.path = x.path) :
    add_repository (l1 ++ r :: l2) x = l1 ++ x :: l2 := by
  induction l1 with
  | nil =>
    have : r.is_same_local x = true := by simp [Repository.is_same_local, hr]
    simp [add_repository, this]
  | cons y ys ih =>
    have hy : y.path ≠ x.path := h1 y (List.mem_cons_self y ys)
    have : y.is_same_local x = false := by
      simp [Repository.is_same_local, hy]
    simp only [List.cons_append, add_repository, this, Bool.false_eq_true, if_false,
      List.append_eq]
    rw [ih (fun z hz => h1 z (List.mem_cons_of_mem y hz))]

theorem mem_add_repository {repos : List Repository} {x y : Repository}
    (h : y ∈ add_repository repos x) : y ∈ repos ∨ y = x := by
  induction repos with
  | nil =>
    simp [add_repository] at h
    exact Or.inr h
  | cons r rs ih =>
    by_cases hs : r.is_same_local x = true
    · simp [add_repository, hs] at h
      rcases h with h | h
      · exact Or.inr h
      · exact Or.inl (List.mem_cons_of_mem r h)
    · simp [add_repository, hs] at h
      rcases h with h | h
      · exact Or.inl (by simp [h])
      · rcases ih h with h' | h'
        · exact Or.inl (List.mem_cons_of_mem r h')
        · exact Or.inr h'

theorem add_repository_distinct {repos : List Repository} {x : Repository}
    (h : catalogDistinct repos) : catalogDistinct (add_repository repos x) := by
  induction repos with
  | nil =>
    simp [add_repository, catalogDistinct]
  | cons r rs ih =>
    rcases List.pairwise_cons.mp h with ⟨hhead, htail⟩
    by_cases hs : r.is_same_local x = true
    · have hrx : r.path = x.path := (is_same_local_iff r x).mp hs
      simp only [add_repository, hs, if_true]
      exact List.pairwise_cons.mpr
        ⟨fun y hy => hrx ▸ hhead y hy, htail⟩
    · have hrx : r.path ≠ x.path := by
        intro hpq
        exact hs ((is_same_local_iff r x).mpr hpq)
      simp only [add_repository, hs, Bool.false_eq_true, if_false]
      refine List.pairwise_cons.mpr ⟨?_, ih htail⟩
      intro y hy
      rcases mem_add_repository hy with h' | h'
      · exact hhead y h'
      · exact h' ▸ hrx

theorem add_repository_filter {repos : List Repository} {x : Repository}
    (h : catalogDistinct repos) :
    (add_repository repos x).filter (fun r => r.is_same_local x) = [x] := by
  induction repos with
  | nil =>
    simp [add_repository, List.filter, Repository.is_same_local]
  | cons r rs ih =>
    rcases List.pairwise_cons.mp h with ⟨hhead, htail⟩
    by_cases hs : r.is_same_local x = true
    · have hrx : r.path = x.path := (is_same_local_iff r x).mp hs
      have hnil : rs.filter (fun r => r.is_same_local x) = [] := by
        rw [List.filter_eq_nil_iff]
        intro y hy
        have : r.path ≠ y.path := hhead y hy
        simp [Repository.is_same_local]
        intro hyx
        exact this (hrx.trans hyx.symm)
      simp only [add_repository, hs, if_true]
      rw [List.filter_cons, if_pos (by simp [Repository.is_same_local]), hnil]
    · simp only [add_repository, hs, Bool.false_eq_true, if_false]
      rw [List.filter_cons]
      simp only [hs, Bool.false_eq_true, if_false]
      exact ih htail

theorem add_repository_length_of_exists {repos : List Repository}
    {x : Repository} (h : ∃ r ∈ repos, r.path = x.path) :
    (add_repository repos x).length = repos.length := by
  induction repos with
  | nil => simp at h
  | cons r rs ih =>
    by_cases hs : r.is_same_local x = true
    · simp [add_repository, hs]
    · have hrx : r.path ≠ x.path := by
        intro hpq
        exact hs ((is_same_local_iff r x).mpr hpq)
      rcases h with ⟨y, hy, hyx⟩
      rcases List.mem_cons.mp hy with h' | h'
      · exact absurd (h' ▸ hyx) hrx
      · simp only [add_repository, hs, Bool.false_eq_true, if_false, List.length_cons]
        rw [ih ⟨y, h', hyx⟩]

/-- C1: for every catalog satisfying the data-model invariant (no two entries
share a canonicalized local path) and any two repositories with the same
canonicalized local path, adding both leaves exactly one entry for that path,
whose fields are those of the last add, and the second (colliding) add
replaces rather than appends: the catalog length does not grow. -/
theorem add_repository_idempotent_same_path
    (repos : List Repository) (r1 r2 : Repository)
    (hinv : catalogDistinct repos) (hsame : r1.path = r2.path) :
    (add_repository (add_repository repos r1) r2).filter
        (fun r => r.is_same_local r2) = [r2] ∧
    (add_repository (add_repository repos r1) r2).length =
      (add_repository repos r1).length := by
  have hinv1 : catalogDistinct (add_repository repos r1) :=
    add_repository_distinct hinv
  constructor
  · exact add_repository_filter hinv1
  · have hfilter : (add_repository repos r1).filter
        (fun r => r.is_same_local r1) = [r1] := add_repository_filter hinv
    have hmem : r1 ∈ add_repository repos r1 := by
      have : r1 ∈ (add_repository repos r1).filter
          (fun r => r.is_same_local r1) := by
        rw [hfilter]; exact List.mem_singleton.mpr rfl
      exact List.mem_of_mem_filter this
    exact add_repository_length_of_exists ⟨r1, hmem, hsame⟩

/-- Witness for C1 at a concrete catalog: one unrelated entry, then two adds
with the same local path `w/a`. -/
theorem add_repository_idempotent_same_path_witness :
    (add_repository
        (add_repository [⟨["w", "x"], Vcs.git, none⟩]
          ⟨["w", "a"], Vcs.git, none⟩)
        ⟨["w", "a"], Vcs.hg, some "u"⟩).filter
        (fun r => r.is_same_local ⟨["w", "a"], Vcs.hg, some "u"⟩) =
      [⟨["w", "a"], Vcs.hg, some "u"⟩] ∧
    (add_repository
        (add_repository [⟨["w", "x"], Vcs.git, none⟩]
          ⟨["w", "a"], Vcs.git, none⟩)
        ⟨["w", "a"], Vcs.hg, some "u"⟩).length =
      (add_repository [⟨["w", "x"], Vcs.git, none⟩]
        ⟨["w", "a"], Vcs.git, none⟩).length :=
  add_repository_idempotent_same_path
    [⟨["w", "x"], Vcs.git, none⟩]
    ⟨["w", "a"], Vcs.git, none⟩
    ⟨["w", "a"], Vcs.hg, some "u"⟩
    (by simp [catalogDistinct]) (by decide)

/-- C10 (implicit frame effect of `add_repository`): when the catalog splits
as `l1 ++ r :: l2` with `r` the first entry sharing the new repository's local
path, the add overwrites `r` in place — same length, same position, every
other entry unchanged; when no entry shares the path, the new repository is
appended at the end with all existing entries unchanged. -/
theorem add_repository_frame :
    (∀ (l1 : List Repository) (r : Repository) (l2 : List Repository)
        (x : Repository),
      (∀ y ∈ l1, y.is_same_local x = false) → r.is_same_local x = true →
      add_repository (l1 ++ r :: l2) x = l1 ++ x :: l2) ∧
    (∀ (repos : List Repository) (x : Repository),
      (∀ y ∈ repos, y.is_same_local x = false) →
      add_repository repos x = repos ++ [x]) := by
  constructor
  · intro l1 r l2 x h1 hr
    refine add_repository_replace l1 r l2 x ?_ ((is_same_local_iff r x).mp hr)
    intro y hy hpq
    have := h1 y hy
    rw [(is_same_local_iff y x).mpr hpq] at this
    exact Bool.true_eq_false.mp this
  · intro repos x h
    refine add_repository_of_not_mem repos x ?_
    intro y hy hpq
    have := h y hy
    rw [(is_same_local_iff y x).mpr hpq] at this
    exact Bool.true_eq_false.mp this

/-- Witness for C10: in-place overwrite in the middle of a concrete catalog,
and append at the end of a catalog with no colliding entry. -/
theorem add_repository_frame_witness :
    add_repository
        ([⟨["w", "x"], Vcs.git, none⟩] ++
          ⟨["w", "a"], Vcs.git, none⟩ :: [⟨["w", "z"], Vcs.darcs, none⟩])
        ⟨["w", "a"], Vcs.hg, some "u"⟩ =
      [⟨["w", "x"], Vcs.git, none⟩] ++
        ⟨["w", "a"], Vcs.hg, some "u"⟩ :: [⟨["w", "z"], Vcs.darcs, none⟩] ∧
    add_repository [⟨["w", "x"], Vcs.git, none⟩]
        ⟨["w", "a"], Vcs.hg, some "u"⟩ =
      [⟨["w", "x"], Vcs.git, none⟩] ++ [⟨["w", "a"], Vcs.hg, some "u"⟩] :=
  ⟨add_repository_frame.1 [⟨["w", "x"], Vcs.git, none⟩]
      ⟨["w", "a"], Vcs.git, none⟩ [⟨["w", "z"], Vcs.darcs, none⟩]
      ⟨["w", "a"], Vcs.hg, some "u"⟩ (by decide) (by decide),
    add_repository_frame.2 [⟨["w", "x"], Vcs.git, none⟩]
      ⟨["w", "a"], Vcs.hg, some "u"⟩ (by decide)⟩

/-- Modelled from the spec: `Repository::refresh` re-validates that the
repository's path still exists on disk and still carries a VCS signature
(`repository.rs` is not among the provided sources; the validation outcome on
a fixed filesystem snapshot is abstracted as a predicate). An entry failing
validation is dropped; a valid entry is kept unchanged. -/
def refresh (validates : Repository → Bool) (r : Repository) :
    Option Repository :=
  if validates r then some r else none

/-- `Workspace::drop_invalid_repositories` (workspace.rs:102-121): rebuild the
catalog by pushing, in order, each entry that still refreshes and whose path
string matches no configured exclude pattern (glob patterns are external to
the sources and abstracted as string predicates). -/
def drop_invalid_repositories (validates : Repository → Bool)
    (excludes : List (String → Bool)) : List Repository → List Repository
  | [] => []
  | r :: rs =>
    match refresh validates r with
    | none => drop_invalid_repositories validates excludes rs
    | some r' =>
      if excludes.all (fun ex => !(ex r'.path_string)) then
        r' :: drop_invalid_repositories validates excludes rs
      else
        drop_invalid_repositories validates excludes rs

/-- C7: after `drop_invalid_repositories` the catalog is exactly the filter of
the prior entries keeping those that still validate and match no exclude
pattern, each untouched and in the original relative order; in particular the
spec's scenario `{/w/a, /w/b, /w/c}` with `/w/b` gone yields `{/w/a, /w/c}` in
that order. -/
theorem drop_invalid_repositories_filter :
    (∀ (validates : Repository → Bool) (excludes : List (String → Bool))
        (repos : List Repository),
      drop_invalid_repositories validates excludes repos =
        repos.filter (fun r =>
          validates r && excludes.all (fun ex => !(ex r.path_string)))) ∧
    drop_invalid_repositories (fun r => !(r.path_string == "w/b")) []
        [⟨["w", "a"], Vcs.git, none⟩, ⟨["w", "b"], Vcs.git, none⟩,
          ⟨["w", "c"], Vcs.git, none⟩] =
      [⟨["w", "a"], Vcs.git, none⟩, ⟨["w", "c"], Vcs.git, none⟩] := by
  constructor
  · intro validates excludes repos
    induction repos with
    | nil => rfl
    | cons r rs ih =>
      by_cases hv : validates r = true
      · by_cases he : excludes.all (fun ex => !(ex r.path_string)) = true
        · simp [drop_invalid_repositories, refresh, hv, he, List.filter_cons, ih]
        · simp [drop_invalid_repositories, refresh, hv, he, List.filter_cons, ih]
      · simp [drop_invalid_repositories, refresh, hv, List.filter_cons, ih]
  · decide

/-- `Workspace::sort_repositories` (workspace.rs:123-128): stable sort of the
catalog by display name, ascending (Rust's slice `sort_by` is a stable sort;
embedded with the stable `List.mergeSort`). -/
def sort_repositories (repos : List Repository) : List Repository :=
  repos.mergeSort (fun a b => decide (a.name ≤ b.name))

theorem nameLE_trans (a b c : Repository)
    (h1 : decide (a.name ≤ b.name) = true)
    (h2 : decide (b.name ≤ c.name) = true) :
    decide (a.name ≤ c.name) = true := by
  rw [decide_eq_true_eq] at h1 h2 ⊢
  exact le_trans h1 h2

theorem nameLE_total (a b : Repository) :
    (decide (a.name ≤ b.name) || decide (b.name ≤ a.name)) = true := by
  rcases le_total a.name b.name with h | h <;> simp [h]

/-- C8: `sort_repositories` returns a permutation of the catalog, arranged in
ascending display-name order, and the sort is stable: for every name, the
subsequence of entries bearing that name is unchanged (so equal-named entries
keep their relative order and no entry's fields are modified). Sorting is a
pure in-memory reordering — the function persists nothing. -/
theorem sort_repositories_spec (repos : List Repository) :
    (sort_repositories repos).Perm repos ∧
    (sort_repositories repos).Pairwise (fun a b => a.name ≤ b.name) ∧
    ∀ n : String,
      (sort_repositories repos).filter (fun r => r.name == n) =
        repos.filter (fun r => r.name == n) := by
  refine ⟨List.mergeSort_perm repos _, ?_, ?_⟩
  · have h := List.sorted_mergeSort nameLE_trans nameLE_total repos
    exact h.imp (fun hab => by exact of_decide_eq_true hab)
  · intro n
    have hperm : List.Perm
        ((sort_repositories repos).filter (fun r => r.name == n))
        (repos.filter (fun r => r.name == n)) :=
      (List.mergeSort_perm repos _).filter _
    have hpair : (repos.filter (fun r => r.name == n)).Pairwise
        (fun a b => decide (a.name ≤ b.name) = true) := by
      apply List.pairwise_of_forall_mem_list
      intro a ha b hb
      have ha' : a.name = n := by
        have := (List.mem_filter.mp ha).2
        simpa using this
      have hb' : b.name = n := by
        have := (List.mem_filter.mp hb).2
        simpa using this
      simp [ha', hb']
    have hsub : List.Sublist (repos.filter (fun r => r.name == n))
        (sort_repositories repos) :=
      List.sublist_mergeSort nameLE_trans nameLE_total hpair
        (List.filter_sublist repos)
    have hsub2 : List.Sublist (repos.filter (fun r => r.name == n))
        ((sort_repositories repos).filter (fun r => r.name == n)) := by
      have h := List.Sublist.filter (fun r => r.name == n) hsub
      rwa [List.filter_eq_self.mpr fun a ha => (List.mem_filter.mp ha).2] at h
    exact (List.Sublist.eq_of_length hsub2 hperm.length_eq.symm).symm

/-- The cache as seen through `Cache::get_opt` (`cache.rs` is not among the
provided sources; per the doc comment on `Workspace::repositories`,
workspace.rs:64-65, `get_opt` yields `None` when the cache has not been
created yet — in particular when the cache file is absent). -/
structure Cache where
  inner : Option (List Repository)

/-- `Cache::get_opt`. -/
def Cache.get_opt (c : Cache) : Option (List Repository) :=
  c.inner

/-- `Workspace::repositories` (workspace.rs:66-70): the managed repository
list, or `none` when the cache has not been created yet. -/
def repositories (c : Cache) : Option (List Repository) :=
  c.get_opt

/-- The loop body of `Workspace::for_each_repo`: apply `f` to each repository
in turn, stopping at the first error. -/
def forEachLoop (f : Repository → Except String Unit) :
    List Repository → Except String Unit
  | [] => .ok ()
  | r :: rs =>
    match f r with
    | .error e => .error e
    | .ok _ => forEachLoop f rs

/-- `Workspace::for_each_repo` (workspace.rs:147-154): errors when
`repositories` yields `none`, otherwise applies `f` to every repository. -/
def for_each_repo (c : Cache) (f : Repository → Except String Unit) :
    Except String Unit :=
  match repositories c with
  | none => .error "The cache has not initialized yet"
  | some repos => forEachLoop f repos

/-- Counterexample to C9: with the cache not created (the cache file absent),
`for_each_repo` does not succeed on zero repositories — it returns the error
"The cache has not initialized yet" even for a function that always
succeeds. -/
theorem for_each_repo_uninitialized_cex :
    for_each_repo ⟨none⟩ (fun _ => .ok ()) =
      .error "The cache has not initialized yet" ∧
    for_each_repo ⟨none⟩ (fun _ => .ok ()) ≠ .ok () := by
  constructor
  · rfl
  · intro h
    exact Except.noConfusion h

/-- C9 amended: when the cache has not been created (cache file absent),
`repositories` returns `none` and `for_each_repo` fails with "The cache has
not initialized yet" for every function, applying it to nothing; only a
present (possibly empty) catalog makes `for_each_repo` succeed on zero
repositories. -/
theorem for_each_repo_cache_spec :
    (∀ f : Repository → Except String Unit,
      for_each_repo ⟨none⟩ f = .error "The cache has not initialized yet") ∧
    repositories ⟨none⟩ = none ∧
    (∀ f : Repository → Except String Unit,
      for_each_repo ⟨some []⟩ f = .ok ()) :=
  ⟨fun _ => rfl, rfl, fun _ => rfl⟩

/-- A parsed query (`query.rs` is not among the provided sources): an optional
host component and a non-empty repository path, modelled from the spec's
grammar; the path's `/`-separated segments are kept as a list. -/
structure Query where
  host : Option String
  path : List String

/-- The configuration values consulted by `Workspace::resolve_query`
(`config.rs` is not among the provided sources; modelled from the spec:
an optional root directory). -/
structure Config where
  rootDir : Option FPath

/-- The workspace state consulted by `resolve_query`: the explicitly-set root
(`Workspace::root_dir`) and the configuration. -/
structure WorkspaceRoots where
  root : Option FPath
  config : Config

/-- `Workspace::resolve_query` (workspace.rs:137-145): the explicitly-set root
if provided, else the configured root directory, failing with "Unknown root
directory" when neither is available; the result joins the root, the query's
host (defaulting to the literal "github.com") and the query's path. -/
def resolve_query (ws : WorkspaceRoots) (q : Query) : Except String FPath :=
  match ws.root.or ws.config.rootDir with
  | none => .error "Unknown root directory"
  | some root => .ok (root ++ [q.host.getD "github.com"] ++ q.path)

/-- C4: `resolve_query` returns `root/host/path` with the host defaulting to
the literal "github.com", preferring the explicitly-set workspace root over
the configured root directory, and errors exactly when neither root is
available. (`resolve_query` takes `&self` in the source and the embedding is
a pure function: no state changes in the error case or otherwise.) -/
theorem resolve_query_spec (ws : WorkspaceRoots) (q : Query) :
    (∀ r : FPath, ws.root = some r →
      resolve_query ws q = .ok (r ++ [q.host.getD "github.com"] ++ q.path)) ∧
    (ws.root = none → ∀ r : FPath, ws.config.rootDir = some r →
      resolve_query ws q = .ok (r ++ [q.host.getD "github.com"] ++ q.path)) ∧
    (resolve_query ws q = .error "Unknown root directory" ↔
      (ws.root = none ∧ ws.config.rootDir = none)) := by
  refine ⟨?_, ?_, ?_⟩
  · intro r hr
    simp [resolve_query, Option.or, hr]
  · intro hr r hc
    simp [resolve_query, Option.or, hr, hc]
  · constructor
    · intro h
      rcases hr : ws.root with _ | r
      · rcases hc : ws.config.rootDir with _ | c
        · exact ⟨rfl, rfl⟩
        · simp [resolve_query, Option.or, hr, hc] at h
      · simp [resolve_query, Option.or, hr] at h
    · rintro ⟨hr, hc⟩
      simp [resolve_query, Option.or, hr, hc]

/-- Witness for C4 at concrete inputs: an explicit root wins, a configured
root is used when no explicit root is set, and no root at all is the error
case. -/
theorem resolve_query_spec_witness :
    resolve_query ⟨some ["w"], ⟨some ["cfg"]⟩⟩ ⟨none, ["user", "repo"]⟩ =
      .ok ["w", "github.com", "user", "repo"] ∧
    resolve_query ⟨none, ⟨some ["cfg"]⟩⟩ ⟨some "gitlab.com", ["u", "r"]⟩ =
      .ok ["cfg", "gitlab.com", "u", "r"] ∧
    resolve_query ⟨none, ⟨none⟩⟩ ⟨none, ["u", "r"]⟩ =
      .error "Unknown root directory" :=
  ⟨(resolve_query_spec ⟨some ["w"], ⟨some ["cfg"]⟩⟩
      ⟨none, ["user", "repo"]⟩).1 ["w"] rfl,
    (resolve_query_spec ⟨none, ⟨some ["cfg"]⟩⟩
      ⟨some "gitlab.com", ["u", "r"]⟩).2.1 rfl ["cfg"] rfl,
    (resolve_query_spec ⟨none, ⟨none⟩⟩ ⟨none, ["u", "r"]⟩).2.2.mpr
      ⟨rfl, rfl⟩⟩

/-- The filesystem and VCS probe as visible to the scanner and importer, on a
fixed snapshot:
* `children p` — the subdirectory names `walkdir` enumerates inside `p`;
* `detect p` — `vcs::detect_from_path` (the `vcs` module is not among the
  provided sources; modelled from the spec as an abstract probe returning the
  detected kind, with filesystem probe errors collapsed into `none`);
* `getRemoteUrl p` — `vcs.get_remote_url` (same module), which may fail with
  an IO error, or succeed with no configured remote;
* `canon p` — `Path::canonicalize().ok()` rendered as a string with the
  Windows verbatim prefix trimmed, `none` when canonicalization fails;
* `entryOk p` — whether `walkdir` delivers the entry as `Ok` (per-entry
  traversal errors are dropped by `filter_map(Result::ok)`). -/
structure FsModel where
  children : FPath → List String
  detect : FPath → Option Vcs
  getRemoteUrl : FPath → Except String (Option String)
  canon : FPath → Option String
  entryOk : FPath → Bool

/-- `vcs::detect_from_path(..).is_some()`. -/
def vcsDetected (fs : FsModel) (p : FPath) : Bool :=
  (fs.detect p).isSome

/-- The second conjunct of the `collect_repositories` filter closure
(workspace.rs:185-193): canonicalization must succeed, and the resulting
prefix-normalized path string must match no exclude pattern. -/
def entryNotExcluded (fs : FsModel) (excludes : List (String → Bool))
    (p : FPath) : Bool :=
  match fs.canon p with
  | some s => excludes.all (fun ex => !(ex s))
  | none => false

/-- The `collect_repositories` filter closure (workspace.rs:174-195): the scan
root always passes; any other entry passes when its parent is not a detected
repository root and it survives the exclude check. -/
def scanFilter (fs : FsModel) (excludes : List (String → Bool))
    (root p : FPath) : Bool :=
  if p = root then true
  else
    !(((parentPath p).map (vcsDetected fs)).getD false) &&
      entryNotExcluded fs excludes p

/-- `WalkDir::max_depth`: an entry is yielded only while its depth does not
exceed the limit (the scan root is depth 0). -/
def depthOk (maxd : Option Nat) (d : Nat) : Bool :=
  match maxd with
  | none => true
  | some m => decide (d ≤ m)

/-- The `WalkDir` traversal with `filter_entry` semantics: a directory failing
the filter is pruned together with everything beneath it; entries delivered
as errors are dropped (`filter_map(Result::ok)`) without stopping the walk.
`fuel` bounds the recursion depth so the walk is total; every theorem below
holds for every fuel value, and on a finite filesystem any fuel at least the
tree height makes the walk complete. -/
def walk (fs : FsModel) (excludes : List (String → Bool)) (root : FPath)
    (maxd : Option Nat) : Nat → FPath → Nat → List FPath
  | 0, _, _ => []
  | fuel + 1, p, d =>
    if depthOk maxd d && scanFilter fs excludes root p then
      (if fs.entryOk p then [p] else []) ++
        (fs.children p).flatMap
          (fun n => walk fs excludes root maxd fuel (p ++ [n]) (d + 1))
    else []

/-- `collect_repositories` (workspace.rs:170-208): walk the tree from `root`
with the filter closure, then keep the entries where a VCS is detected. -/
def collect_repositories (fs : FsModel) (fuel : Nat) (root : FPath)
    (maxd : Option Nat) (excludes : List (String → Bool)) : List FPath :=
  (walk fs excludes root maxd fuel root 0).filter (vcsDetected fs)

theorem mem_walk_extends {fs : FsModel} {excludes : List (String → Bool)}
    {root : FPath} {maxd : Option Nat} :
    ∀ (fuel : Nat) (p : FPath) (d : Nat) (r : FPath),
      r ∈ walk fs excludes root maxd fuel p d → ∃ t, p ++ t = r := by
  intro fuel
  induction fuel with
  | zero => intro p d r hr; simp [walk] at hr
  | succ fuel ih =>
    intro p d r hr
    simp only [walk] at hr
    by_cases hcond : (depthOk maxd d && scanFilter fs excludes root p) = true
    · rw [if_pos hcond] at hr
      rcases List.mem_append.mp hr with h | h
      · have hrp : r = p := by
          by_cases hok : fs.entryOk p = true
          · rw [if_pos hok] at h; simpa using h
          · rw [if_neg hok] at h; simp at h
        exact ⟨[], by simp [hrp]⟩
      · rcases List.mem_flatMap.mp h with ⟨n, hn, hmem⟩
        rcases ih (p ++ [n]) (d + 1) r hmem with ⟨t, ht⟩
        exact ⟨n :: t, by simpa using ht⟩
    · rw [if_neg hcond] at hr; simp at hr

theorem mem_walk_ancestor_filter {fs : FsModel}
    {excludes : List (String → Bool)} {root : FPath} {maxd : Option Nat} :
    ∀ (fuel : Nat) (p : FPath) (d : Nat) (r : FPath),
      r ∈ walk fs excludes root maxd fuel p d →
      ∀ q : FPath, (∃ t, p ++ t = q) → (∃ u, q ++ u = r) →
      scanFilter fs excludes root q = true := by
  intro fuel
  induction fuel with
  | zero => intro p d r hr; simp [walk] at hr
  | succ fuel ih =>
    intro p d r hr q hpq hqr
    simp only [walk] at hr
    by_cases hcond : (depthOk maxd d && scanFilter fs excludes root p) = true
    · rw [if_pos hcond] at hr
      have hfp : scanFilter fs excludes root p = true := by
        have h' := hcond
        simp only [Bool.and_eq_true] at h'
        exact h'.2
      rcases List.mem_append.mp hr with h | h
      · have hrp : r = p := by
          by_cases hok : fs.entryOk p = true
          · rw [if_pos hok] at h; simpa using h
          · rw [if_neg hok] at h; simp at h
        rcases hpq with ⟨t, ht⟩
        rcases hqr with ⟨u, hu⟩
        rw [hrp] at hu
        have h2 : t ++ u = [] := by
          have h3 : p ++ (t ++ u) = p ++ [] := by
            rw [← List.append_assoc, ht, hu]; simp
          exact List.append_cancel_left h3
        have ht0 : t = [] := by
          cases t with
          | nil => rfl
          | cons a as => simp at h2
        have hq : q = p := by rw [← ht, ht0]; simp
        rw [hq]; exact hfp
      · rcases List.mem_flatMap.mp h with ⟨n, hn, hmem⟩
        by_cases hq : q = p
        · rw [hq]; exact hfp
        · rcases hpq with ⟨t, ht⟩
          have htne : t ≠ [] := by
            intro h0
            apply hq
            rw [← ht, h0]; simp
          rcases mem_walk_extends fuel (p ++ [n]) (d + 1) r hmem with ⟨s, hs⟩
          rcases hqr with ⟨u, hu⟩
          have hts : t ++ u = n :: s := by
            have h3 : p ++ (t ++ u) = p ++ (n :: s) := by
              rw [← List.append_assoc, ht, hu, ← hs]; simp
            exact List.append_cancel_left h3
          rcases t with _ | ⟨t0, t'⟩
          · exact absurd rfl htne
          · have ht0 : t0 = n := by
              have := hts
              simp only [List.cons_append, List.cons.injEq] at this
              exact this.1
            have htu : t' ++ u = s := by
              have := hts
              simp only [List.cons_append, List.cons.injEq] at this
              exact this.2
            refine ih (p ++ [n]) (d + 1) r hmem q ⟨t', ?_⟩ ⟨u, hu⟩
            rw [← ht, ht0]; simp
    · rw [if_neg hcond] at hr; simp at hr

/-- C2: (1) no path returned by the scan has its parent directory also among
the returned paths — the filter prunes every directory whose immediate parent
is a detected repository root; (2) the scan root itself is always eligible:
whatever the excludes, the detection status of its own parent, or its
canonicalization, it is returned as soon as the walker delivers it and a VCS
is detected there. -/
theorem collect_repositories_no_nested (fs : FsModel) (fuel : Nat)
    (root : FPath) (maxd : Option Nat) (excludes : List (String → Bool)) :
    (∀ p ∈ collect_repositories fs fuel root maxd excludes,
      ∀ q ∈ collect_repositories fs fuel root maxd excludes,
        parentPath p ≠ some q) ∧
    (0 < fuel → fs.entryOk root = true → vcsDetected fs root = true →
      root ∈ collect_repositories fs fuel root maxd excludes) := by
  constructor
  · intro p hp q hq hpar
    have hp' : p ∈ walk fs excludes root maxd fuel root 0 :=
      List.mem_of_mem_filter hp
    have hq' : q ∈ walk fs excludes root maxd fuel root 0 :=
      List.mem_of_mem_filter hq
    have hqv : vcsDetected fs q = true := List.of_mem_filter hq
    have hppre := mem_walk_extends fuel root 0 p hp'
    have hqpre := mem_walk_extends fuel root 0 q hq'
    have hpne : ¬p.isEmpty := by
      intro h
      simp [parentPath, h] at hpar
    have hqdrop : q = p.dropLast := by
      simp only [parentPath, hpne, Bool.false_eq_true, if_false,
        Option.some.injEq] at hpar
      exact hpar.symm
    by_cases hproot : p = root
    · rcases hqpre with ⟨t, ht⟩
      have hlen : q.length = p.length - 1 := by
        rw [hqdrop, List.length_dropLast]
      have hlen2 : root.length + t.length = q.length := by
        rw [← ht, List.length_append]
      have hrootne : root.length ≠ 0 := by
        intro h0
        apply hpne
        rw [hproot]
        exact List.isEmpty_iff.mpr (List.eq_nil_of_length_eq_zero h0)
      rw [hproot] at hlen
      omega
    · have hfilter : scanFilter fs excludes root p = true := by
        refine mem_walk_ancestor_filter fuel root 0 p hp' p hppre ⟨[], by simp⟩
      have hpar' : parentPath p = some q := by
        simp [parentPath, hpne, hqdrop]
      simp [scanFilter, hproot, hpar'] at hfilter
      exact Bool.false_ne_true (hfilter.1.symm.trans hqv)
  · intro hfuel hok hdet
    rcases fuel with _ | f
    · exact absurd hfuel (by simp)
    · have hroot : root ∈ walk fs excludes root maxd (f + 1) root 0 := by
        simp only [walk]
        have hd : depthOk maxd 0 = true := by
          cases maxd with
          | none => rfl
          | some m => simp [depthOk]
        have hf : scanFilter fs excludes root root = true := by
          simp [scanFilter]
        rw [if_pos (by rw [hd, hf]; rfl)]
        apply List.mem_append_left
        rw [if_pos hok]
        exact List.mem_singleton.mpr rfl
      exact List.mem_filter.mpr ⟨hroot, hdet⟩

/-- C3: every path the scan returns other than the root — and, more strongly,
every directory on the traversal chain from the root down to a returned path
— canonicalizes successfully to a string that matches no exclude pattern. In
particular a returned path never matches an exclude pattern unless it equals
the scan root, and nothing beneath an exclude-matching directory is ever
returned (the matching directory is pruned from traversal entirely). -/
theorem collect_repositories_excludes (fs : FsModel) (fuel : Nat)
    (root : FPath) (maxd : Option Nat) (excludes : List (String → Bool)) :
    ∀ p ∈ collect_repositories fs fuel root maxd excludes,
      ∀ q : FPath, (∃ t, root ++ t = q) → (∃ u, q ++ u = p) → q ≠ root →
        entryNotExcluded fs excludes q = true := by
  intro p hp q hq1 hq2 hqroot
  have hp' : p ∈ walk fs excludes root maxd fuel root 0 :=
    List.mem_of_mem_filter hp
  have hfilter : scanFilter fs excludes root q = true :=
    mem_walk_ancestor_filter fuel root 0 p hp' q hq1 hq2
  simp only [scanFilter, hqroot, if_false, Bool.and_eq_true] at hfilter
  exact hfilter.2

/-- A concrete filesystem for witnesses: root `r` holding two sibling
repositories `a` and `b`, everything canonicalizable and accessible. -/
def fsEx : FsModel where
  children := fun p => if p = ["r"] then ["a", "b"] else []
  detect := fun p =>
    if p = ["r", "a"] ∨ p = ["r", "b"] then some Vcs.git else none
  getRemoteUrl := fun _ => .ok none
  canon := fun p => some (String.intercalate "/" p)
  entryOk := fun _ => true

/-- A concrete filesystem whose scan root is itself a repository and does not
even canonicalize — it is still returned. -/
def fsExRoot : FsModel where
  children := fun _ => []
  detect := fun p => if p = ["r"] then some Vcs.git else none
  getRemoteUrl := fun _ => .ok none
  canon := fun _ => none
  entryOk := fun _ => true

/-- Witness for C2: two sibling results are never parent and child, and a
scan root that is itself a detected repository is returned even though its
canonicalization fails. -/
theorem collect_repositories_no_nested_witness :
    parentPath ["r", "a"] ≠ some ["r", "b"] ∧
    ["r"] ∈ collect_repositories fsExRoot 1 ["r"] none [] :=
  ⟨(collect_repositories_no_nested fsEx 3 ["r"] none []).1
      ["r", "a"] (by decide) ["r", "b"] (by decide),
    (collect_repositories_no_nested fsExRoot 1 ["r"] none []).2
      (by decide) (by decide) (by decide)⟩

/-- A concrete filesystem with a nested repository `r/b/c` below the excluded
repository `r/b`. -/
def fsEx3 : FsModel where
  children := fun p =>
    if p = ["r"] then ["a", "b"]
    else if p = ["r", "b"] then ["c"] else []
  detect := fun p =>
    if p = ["r", "a"] ∨ p = ["r", "b"] ∨ p = ["r", "b", "c"] then
      some Vcs.git
    else none
  getRemoteUrl := fun _ => .ok none
  canon := fun p => some (String.intercalate "/" p)
  entryOk := fun _ => true

/-- The exclude set for the C3 witness: the single pattern matching `r/b`. -/
def exEx : List (String → Bool) :=
  [fun s => s == "r/b"]

/-- Witness for C3: the returned path `r/a` (and every directory on its chain
below the root) canonicalizes and matches no exclude pattern. -/
theorem collect_repositories_excludes_witness :
    entryNotExcluded fsEx3 exEx ["r", "a"] = true :=
  collect_repositories_excludes fsEx3 4 ["r"] none exEx
    ["r", "a"] (by decide) ["r", "a"] ⟨["a"], rfl⟩ ⟨[], rfl⟩ (by decide)

/-- `Workspace::new_repository_from_path` (workspace.rs:156-166): `Ok(None)`
when no VCS is detected; an error from reading the remote URL propagates
through `?`; `Ok(None)` — a skip — when the detected VCS has no configured
remote; otherwise a repository carrying the path, the detected kind and the
remote. (`Repository::new` is not among the provided sources; modelled from
the spec as recording path, kind and optional remote.) -/
def new_repository_from_path (fs : FsModel) (p : FPath) :
    Except String (Option Repository) :=
  match fs.detect p with
  | none => .ok none
  | some v =>
    match fs.getRemoteUrl p with
    | .error e => .error e
    | .ok none => .ok none
    | .ok (some url) => .ok (some ⟨p, v, some url⟩)

/-- The loop of `Workspace::import_repositories` (workspace.rs:76-83) over the
collected paths: `?` propagates an error from `new_repository_from_path`, a
`None` result is skipped, a repository is added to the catalog. -/
def importLoop (fs : FsModel) :
    List FPath → List Repository → Except String (List Repository)
  | [], repos => .ok repos
  | p :: ps, repos =>
    match new_repository_from_path fs p with
    | .error e => .error e
    | .ok none => importLoop fs ps repos
    | .ok (some r) => importLoop fs ps (add_repository repos r)

/-- `Workspace::import_repositories` (workspace.rs:76-83): run the scanner,
then fold the loop over the discovered paths. -/
def import_repositories (fs : FsModel) (fuel : Nat) (root : FPath)
    (maxd : Option Nat) (excludes : List (String → Bool))
    (repos : List Repository) : Except String (List Repository) :=
  importLoop fs (collect_repositories fs fuel root maxd excludes) repos

/-- A directory where a VCS is detected but no remote URL is configured. -/
def fsNoRemote : FsModel where
  children := fun _ => []
  detect := fun p => if p = ["r", "a"] then some Vcs.git else none
  getRemoteUrl := fun _ => .ok none
  canon := fun p => some (String.intercalate "/" p)
  entryOk := fun _ => true

/-- Counterexample to C5: on a directory with a detected VCS and no
configured remote, `new_repository_from_path` returns `Ok(None)` — a skip —
and not a repository with an absent remote. -/
theorem new_repository_from_path_no_remote_cex :
    fsNoRemote.detect ["r", "a"] = some Vcs.git ∧
    fsNoRemote.getRemoteUrl ["r", "a"] = .ok none ∧
    new_repository_from_path fsNoRemote ["r", "a"] = .ok none ∧
    ((∃ repo : Repository,
        new_repository_from_path fsNoRemote ["r", "a"] = .ok (some repo)) →
      False) := by
  refine ⟨rfl, rfl, rfl, ?_⟩
  rintro ⟨repo, h⟩
  have hval : new_repository_from_path fsNoRemote ["r", "a"] =
      .ok (none : Option Repository) := rfl
  rw [hval] at h
  injection h with h2
  exact Option.noConfusion h2

/-- C5 amended: when the probe detects a VCS kind but no remote URL is
configured, `new_repository_from_path` returns `Ok(None)`, exactly as for a
non-repository — the path is skipped, so add and import do not record such a
purely local repository. -/
theorem new_repository_from_path_no_remote_skips (fs : FsModel) (p : FPath)
    (v : Vcs) (hdet : fs.detect p = some v)
    (hrem : fs.getRemoteUrl p = .ok none) :
    new_repository_from_path fs p = .ok none := by
  simp [new_repository_from_path, hdet, hrem]

/-- Witness for the amended C5 at the concrete no-remote directory. -/
theorem new_repository_from_path_no_remote_skips_witness :
    new_repository_from_path fsNoRemote ["r", "a"] = .ok none :=
  new_repository_from_path_no_remote_skips fsNoRemote ["r", "a"] Vcs.git
    rfl rfl

/-- A filesystem where reading the remote URL of the first discovered
repository fails with an IO error while a second repository is fine. -/
def fsRemoteErr : FsModel where
  children := fun p => if p = ["r"] then ["a", "b"] else []
  detect := fun p =>
    if p = ["r", "a"] ∨ p = ["r", "b"] then some Vcs.git else none
  getRemoteUrl := fun p =>
    if p = ["r", "a"] then .error "io" else .ok (some "url")
  canon := fun p => some (String.intercalate "/" p)
  entryOk := fun _ => true

/-- Counterexample to C6: a remote-URL read failure on one discovered path is
propagated as a fatal error by `import_repositories` — the import aborts, and
the remaining discovered path `r/b`, which would have produced a repository,
is not processed. -/
theorem import_repositories_remote_error_cex :
    import_repositories fsRemoteErr 3 ["r"] none [] [] = .error "io" ∧
    fsRemoteErr.getRemoteUrl ["r", "a"] = .error "io" ∧
    new_repository_from_path fsRemoteErr ["r", "b"] =
      .ok (some ⟨["r", "b"], Vcs.git, some "url"⟩) :=
  ⟨rfl, rfl, rfl⟩

theorem importLoop_ok (fs : FsModel) (paths : List FPath)
    (repos : List Repository)
    (h : ∀ p ∈ paths, ∀ e : String, fs.getRemoteUrl p ≠ .error e) :
    ∃ res, importLoop fs paths repos = .ok res := by
  induction paths generalizing repos with
  | nil => exact ⟨repos, rfl⟩
  | cons p ps ih =>
    have hps : ∀ q ∈ ps, ∀ e : String, fs.getRemoteUrl q ≠ .error e :=
      fun q hq => h q (List.mem_cons_of_mem p hq)
    rcases hdet : fs.detect p with _ | v
    · have hstep : importLoop fs (p :: ps) repos = importLoop fs ps repos := by
        simp [importLoop, new_repository_from_path, hdet]
      rw [hstep]
      exact ih repos hps
    · rcases hg : fs.getRemoteUrl p with e | o
      · exact absurd hg (h p (List.mem_cons_self p ps) e)
      · rcases o with _ | url
        · have hstep : importLoop fs (p :: ps) repos =
              importLoop fs ps repos := by
            simp [importLoop, new_repository_from_path, hdet, hg]
          rw [hstep]
          exact ih repos hps
        · have hstep : importLoop fs (p :: ps) repos =
              importLoop fs ps (add_repository repos ⟨p, v, some url⟩) := by
            simp [importLoop, new_repository_from_path, hdet, hg]
          rw [hstep]
          exact ih (add_repository repos ⟨p, v, some url⟩) hps

/-- C6 amended: a path where no VCS is detected (including when probing hits
a filesystem error, which `detect_from_path` collapses to "not a repository")
is silently skipped by the import loop; but an error while reading the remote
URL of a detected repository is propagated as a fatal error, aborting
the import at that path; when no discovered path fails its remote-URL read,
`import_repositories` succeeds. -/
theorem import_repositories_error_spec :
    (∀ (fs : FsModel) (p : FPath) (ps : List FPath)
        (repos : List Repository), fs.detect p = none →
      importLoop fs (p :: ps) repos = importLoop fs ps repos) ∧
    (∀ (fs : FsModel) (p : FPath) (ps : List FPath)
        (repos : List Repository) (v : Vcs) (e : String),
      fs.detect p = some v → fs.getRemoteUrl p = .error e →
      importLoop fs (p :: ps) repos = .error e) ∧
    (∀ (fs : FsModel) (fuel : Nat) (root : FPath) (maxd : Option Nat)
        (excludes : List (String → Bool)) (repos : List Repository),
      (∀ p ∈ collect_repositories fs fuel root maxd excludes,
        ∀ e : String, fs.getRemoteUrl p ≠ .error e) →
      ∃ res,
        import_repositories fs fuel root maxd excludes repos = .ok res) := by
  refine ⟨?_, ?_, ?_⟩
  · intro fs p ps repos hdet
    simp [importLoop, new_repository_from_path, hdet]
  · intro fs p ps repos v e hdet hg
    simp [importLoop, new_repository_from_path, hdet, hg]
  · intro fs fuel root maxd excludes repos h
    exact importLoop_ok fs _ repos h

/-- Witness for the amended C6: an undetected path is skipped, a remote-read
error aborts with that error, and an import whose discovered paths never fail
their remote reads succeeds. -/
theorem import_repositories_error_spec_witness :
    importLoop fsNoRemote [["zz"]] [] = importLoop fsNoRemote [] [] ∧
    importLoop fsRemoteErr [["r", "a"]] [] = .error "io" ∧
    ∃ res, import_repositories fsNoRemote 1 ["r"] none [] [] = .ok res :=
  ⟨import_repositories_error_spec.1 fsNoRemote ["zz"] [] [] rfl,
    import_repositories_error_spec.2.1 fsRemoteErr ["r", "a"] [] []
      Vcs.git "io" rfl rfl,
    import_repositories_error_spec.2.2 fsNoRemote 1 ["r"] none [] []
      (by
        intro p hp e
        have hc : collect_repositories fsNoRemote 1 ["r"] none [] = [] := rfl
        rw [hc] at hp
        simp at hp)⟩

end Rhq
